import Mathlib

/-!
Shallow embedding of the interactive line editor of `src/main.cpp`: the
`readline` key loop, `find_completion`, `test`, and the in-memory history
handling of `main`.  Buffers are `List Char`; the C++ `int` cursor is a `Nat`
(every decrement in the source is guarded by a positivity test); the `-1`
sentinel of `history_index` is `Option Nat`; the last-key byte `lst` is
`Option Char`, `none` standing for "no key seen yet" (the source reads `lst`
uninitialised on the very first keystroke; `none` models the sentinel the
design notes call for, and no theorem below depends on the first-key case).
Terminal writes and the `MessageBeep` call are recorded as an effect list.
-/

namespace Shell

/-- The global built-in command list `commands` of main.cpp. -/
def commands : List (List Char) :=
  ["history".toList, "cat".toList, "ls".toList, "echo".toList,
   "type".toList, "exit".toList, "pwd".toList, "cd".toList]

/-- The comparison `s.substr(0, pat.length()) == pat` used throughout
main.cpp; `List.take` clamps exactly as `std::string::substr` does. -/
def prefOk (pat s : List Char) : Bool := s.take pat.length == pat

/-- find_completion: tier 1 filters the built-ins; tier 2, consulted only when
tier 1 is empty, filters the current-directory listing, skipping entries whose
name starts with `'.'`.  The listing is passed in as `dirEntries` (the source
reads it via `opendir`/`readdir`; a failed `opendir` corresponds to an empty
listing). -/
def find_completion (dirEntries : List (List Char)) (pat : List Char) :
    List (List Char) :=
  let results := commands.filter (fun cmd => prefOk pat cmd)
  if results ≠ [] then results
  else
    let contents := dirEntries.filter
      (fun e => !(e.head? == some '.') && prefOk pat e)
    if contents ≠ [] then contents else []

/-- test: counts the candidates of which `word_to_complete` is a prefix (the
C++ `int` counter only ever grows, so `Nat`). -/
def test (completion : List (List Char)) (word : List Char) : Nat :=
  completion.countP (fun cmd => prefOk word cmd)

/-- Symbolic key events, one per branch of readline's dispatch.  `other`
covers bytes matched by no branch (they only update `lst`). -/
inductive Key where
  | enter
  | backspace
  | tab
  | up
  | down
  | left
  | right
  | del
  | printable (c : Char)
  | other (c : Char)
deriving DecidableEq, Repr

/-- Terminal effects of one key: `write s` is text sent to the console
(backspaces, spaces and newlines included); `bell` is the `MessageBeep`
call. -/
inductive Out where
  | write (s : List Char)
  | bell
deriving DecidableEq, Repr

/-- The local state of `readline`. -/
structure EditorState where
  line : List Char
  cursor_pos : Nat
  history_index : Option Nat
  current_line_backup : List Char
  lst : Option Char
deriving DecidableEq, Repr

/-- The ambient data readline consults: the global `history` vector and the
current-directory listing behind `find_completion`. -/
structure Ctx where
  history : List (List Char)
  dirEntries : List (List Char)
deriving DecidableEq, Repr

/-- line.rfind(' '): the index of the last space of the line, if any. -/
def rfindSpace : List Char → Option Nat
  | [] => none
  | c :: rest =>
    match rfindSpace rest with
    | some i => some (i + 1)
    | none => if c = ' ' then some 0 else none

/-- The word the Tab handler submits to `find_completion`: everything after
the last space of the whole line, or the whole line when it has no space
(`line.substr(space_pos + 1)` resp. `line`). -/
def word_to_complete (line : List Char) : List Char :=
  match rfindSpace line with
  | none => line
  | some i => line.drop (i + 1)

/-- The key bytes the source stores into `lst` for the non-printable keys. -/
def bsCode : Char := Char.ofNat 8

def upCode : Char := Char.ofNat 72

def downCode : Char := Char.ofNat 80

def leftCode : Char := Char.ofNat 75

def rightCode : Char := Char.ofNat 77

def delCode : Char := Char.ofNat 83

/-- The backspace character the screen-repair writes emit (C++ `"\b"`). -/
def bsp : Char := Char.ofNat 8

/-- One iteration of readline's key loop: the buffer/cursor mutation and the
terminal writes of the handled key.  `lst = ch` runs at the end of the loop
body, so every key except Enter (which breaks out first) records its byte. -/
def step (ctx : Ctx) (s : EditorState) (k : Key) : EditorState × List Out :=
  match k with
  | .enter => (s, [Out.write ['\n']])
  | .backspace =>
    if s.line ≠ [] ∧ s.cursor_pos > 0 then
      let line' := s.line.take (s.cursor_pos - 1) ++ s.line.drop s.cursor_pos
      let cur' := s.cursor_pos - 1
      let remaining := line'.drop cur'
      ({ s with line := line', cursor_pos := cur', lst := some bsCode },
       [Out.write [bsp], Out.write remaining, Out.write [' '],
        Out.write (List.replicate (remaining.length + 1) bsp)])
    else ({ s with lst := some bsCode }, [])
  | .tab =>
    let word := word_to_complete s.line
    let completion := find_completion ctx.dirEntries word
    if s.lst = some '\t' then
      if completion.length > 1 then
        ({ s with lst := some '\t' },
         [Out.write ['\n']] ++
           completion.map (fun cmd => Out.write (cmd ++ "    ".toList)) ++
           [Out.write ['\n'], Out.write "$ ".toList, Out.write s.line,
            Out.write (List.replicate (s.line.length - s.cursor_pos) bsp)])
      else ({ s with lst := some '\t' }, [])
    else if completion ≠ [] ∧ test completion word = 1 then
      let line' :=
        match rfindSpace s.line with
        | none => completion.headD []
        | some i => s.line.take (i + 1) ++ completion.headD []
      ({ s with line := line', cursor_pos := line'.length, lst := some '\t' },
       List.replicate s.line.length (Out.write [bsp, ' ', bsp]) ++
         [Out.write line'])
    else ({ s with lst := some '\t' }, [Out.bell])
  | .up =>
    if ctx.history ≠ [] then
      let idx : Nat :=
        match s.history_index with
        | none => ctx.history.length - 1
        | some i => if i > 0 then i - 1 else i
      let backup' :=
        match s.history_index with
        | none => s.line
        | some _ => s.current_line_backup
      let line' := ctx.history.getD idx []
      ({ line := line',
         cursor_pos := line'.length,
         history_index := some idx,
         current_line_backup := backup',
         lst := some upCode },
       [Out.write (List.replicate s.cursor_pos bsp),
        Out.write (List.replicate s.line.length ' '),
        Out.write (List.replicate s.line.length bsp),
        Out.write line'])
    else ({ s with lst := some upCode }, [])
  | .down =>
    match s.history_index with
    | none => ({ s with lst := some downCode }, [])
    | some i =>
      let oldLen := s.line.length
      let next :=
        if i + 1 < ctx.history.length then
          (some (i + 1), ctx.history.getD (i + 1) [])
        else (none, s.current_line_backup)
      ({ s with
         line := next.snd,
         cursor_pos := next.snd.length,
         history_index := next.fst,
         lst := some downCode },
       [Out.write (List.replicate s.cursor_pos bsp),
        Out.write (List.replicate oldLen ' '),
        Out.write (List.replicate oldLen bsp),
        Out.write next.snd])
  | .left =>
    if s.cursor_pos > 0 then
      ({ s with cursor_pos := s.cursor_pos - 1, lst := some leftCode },
       [Out.write [bsp]])
    else ({ s with lst := some leftCode }, [])
  | .right =>
    if s.cursor_pos < s.line.length then
      ({ s with cursor_pos := s.cursor_pos + 1, lst := some rightCode },
       [Out.write [s.line.getD s.cursor_pos ' ']])
    else ({ s with lst := some rightCode }, [])
  | .del =>
    if s.line ≠ [] ∧ s.cursor_pos < s.line.length then
      let line' := s.line.take s.cursor_pos ++ s.line.drop (s.cursor_pos + 1)
      let remaining := line'.drop s.cursor_pos
      ({ s with line := line', lst := some delCode },
       [Out.write remaining, Out.write [' '],
        Out.write (List.replicate (remaining.length + 1) bsp)])
    else ({ s with lst := some delCode }, [])
  | .printable c =>
    let line' := s.line.take s.cursor_pos ++ c :: s.line.drop s.cursor_pos
    let cur' := s.cursor_pos + 1
    let remaining := line'.drop (cur' - 1)
    ({ s with line := line', cursor_pos := cur', lst := some c },
     [Out.write remaining,
      Out.write (List.replicate (remaining.length - 1) bsp)])
  | .other c => ({ s with lst := some c }, [])

/-- Iterating `step` over a key sequence, keeping only the state. -/
def runKeys (ctx : Ctx) (s : EditorState) (ks : List Key) : EditorState :=
  ks.foldl (fun st k => (step ctx st k).1) s

/-- The readline locals at entry to the function: empty line, cursor 0,
`history_index = -1`, empty backup, `lst` unset. -/
def initState : EditorState :=
  { line := [], cursor_pos := 0, history_index := none,
    current_line_backup := [], lst := none }

/-- A whitespace byte of main's `" \t"` trimming calls. -/
def wsChar (c : Char) : Bool := c = ' ' || c = '\t'

/-- main's two erase calls on the returned line: strip leading and trailing
spaces and tabs. -/
def trimWs (l : List Char) : List Char :=
  ((l.dropWhile wsChar).reverse.dropWhile wsChar).reverse

/-- One iteration of main's loop as far as the in-memory history vector is
concerned: trim the raw line, skip empty input (and the empty-command safety
check), otherwise `history.push_back(input)`. -/
def submitLine (hist : List (List Char)) (raw : List Char) :
    List (List Char) :=
  let input := trimWs raw
  if input = [] then hist
  else
    let command := input.takeWhile (fun c => c ≠ ' ')
    if command = [] then hist
    else hist ++ [input]

/-- The in-memory history after a session: the entries loaded by
`get_history` folded through the raw lines the user submitted. -/
def sessionHistory (loaded : List (List Char)) (raws : List (List Char)) :
    List (List Char) :=
  raws.foldl submitLine loaded

/-- The current word as the specification words it: the substring of Buffer
after the last space occurring before Cursor, or the whole Buffer if no space
occurs before Cursor. -/
def specCurrentWord (line : List Char) (cursor : Nat) : List Char :=
  match rfindSpace (line.take cursor) with
  | none => line
  | some i => line.drop (i + 1)

/-! ### Theorems -/

/-- C1: every key event of the editor loop preserves the cursor invariant
`0 ≤ Cursor ≤ length(Buffer)` (the lower bound is inherent in the `Nat`
cursor, whose decrements the source guards by positivity tests): if the
invariant holds before the event, it holds after the buffer/cursor mutation
of the event, for printable insert, Backspace, Delete, Left, Right, Up, Down
and Tab alike. -/
theorem step_preserves_cursor_invariant (ctx : Ctx) (s : EditorState)
    (k : Key) (h : s.cursor_pos ≤ s.line.length) :
    (step ctx s k).1.cursor_pos ≤ (step ctx s k).1.line.length := by
  cases k <;>
    simp only [step] <;>
    (repeat' split) <;>
    simp_all [List.length_append, List.length_take, List.length_drop] <;>
    omega

/-- Witness for C1 at a concrete input. -/
theorem step_preserves_cursor_invariant_witness :
    (step ⟨[], []⟩ ⟨['a'], 1, none, [], none⟩ Key.backspace).1.cursor_pos ≤
      (step ⟨[], []⟩ ⟨['a'], 1, none, [], none⟩ Key.backspace).1.line.length :=
  step_preserves_cursor_invariant ⟨[], []⟩ ⟨['a'], 1, none, [], none⟩
    Key.backspace (by decide)

/-- C2 counterexample: from Buffer "ab" with Cursor 0 and history ["x"],
pressing Up then Down restores the Buffer but sets Cursor to 2, the buffer
length, not to the prior value 0 — so Up-then-Down does not restore Cursor. -/
theorem up_down_cursor_not_restored :
    (step ⟨[['x']], []⟩
        ((step ⟨[['x']], []⟩ ⟨['a', 'b'], 0, none, [], none⟩ Key.up).1)
        Key.down).1.line = ['a', 'b'] ∧
    (step ⟨[['x']], []⟩
        ((step ⟨[['x']], []⟩ ⟨['a', 'b'], 0, none, [], none⟩ Key.up).1)
        Key.down).1.cursor_pos ≠ 0 := by decide

/-- C2 amended: for every buffer, every cursor position and every non-empty
history, pressing Up once from the not-navigating state and then Down once
restores Buffer to exactly B and sets Cursor to length(B) (the prior cursor
value only when the cursor was at the end of the line); navigation is left in
the not-navigating state. -/
theorem up_down_restores_buffer (ctx : Ctx) (s : EditorState)
    (hne : ctx.history ≠ []) (h0 : s.history_index = none) :
    (step ctx (step ctx s Key.up).1 Key.down).1.line = s.line ∧
    (step ctx (step ctx s Key.up).1 Key.down).1.cursor_pos = s.line.length ∧
    (step ctx (step ctx s Key.up).1 Key.down).1.history_index = none := by
  have hlen : 0 < ctx.history.length := List.length_pos.mpr hne
  simp only [step, h0, if_pos hne]
  have hnotlt : ¬ (ctx.history.length - 1 + 1 < ctx.history.length) := by omega
  simp [hnotlt]

/-- Witness for the amended C2 at a concrete input. -/
theorem up_down_restores_buffer_witness :
    (step ⟨[['x']], []⟩
        ((step ⟨[['x']], []⟩ ⟨['a', 'b'], 1, none, [], none⟩ Key.up).1)
        Key.down).1.line = ['a', 'b'] ∧
    (step ⟨[['x']], []⟩
        ((step ⟨[['x']], []⟩ ⟨['a', 'b'], 1, none, [], none⟩ Key.up).1)
        Key.down).1.cursor_pos = (['a', 'b'] : List Char).length ∧
    (step ⟨[['x']], []⟩
        ((step ⟨[['x']], []⟩ ⟨['a', 'b'], 1, none, [], none⟩ Key.up).1)
        Key.down).1.history_index = none :=
  up_down_restores_buffer ⟨[['x']], []⟩ ⟨['a', 'b'], 1, none, [], none⟩
    (by decide) rfl

/-- C7: while navigating at history index 0 (the buffer showing entry 0 with
the cursor at its end, as repeated Up presses leave it), a further Up press is
a no-op: `history_index` stays 0 — it neither goes below 0 nor wraps — and
Buffer and Cursor are unchanged; and once navigation has been reset to
not-navigating, a further Down press leaves Buffer, Cursor and the
not-navigating state untouched and writes nothing. -/
theorem history_nav_clamped (ctx : Ctx) (s t : EditorState)
    (h0 : s.history_index = some 0) (h1 : s.line = ctx.history.getD 0 [])
    (h2 : s.cursor_pos = s.line.length) (hne : ctx.history ≠ [])
    (ht : t.history_index = none) :
    ((step ctx s Key.up).1.history_index = some 0 ∧
      (step ctx s Key.up).1.line = s.line ∧
      (step ctx s Key.up).1.cursor_pos = s.cursor_pos) ∧
    ((step ctx t Key.down).1.line = t.line ∧
      (step ctx t Key.down).1.cursor_pos = t.cursor_pos ∧
      (step ctx t Key.down).1.history_index = none ∧
      (step ctx t Key.down).2 = []) := by
  constructor
  · simp [step, h0, hne, h1, h2]
  · simp [step, ht]

/-- Witness for C7 at a concrete input. -/
theorem history_nav_clamped_witness :
    ((step ⟨[['x']], []⟩ ⟨['x'], 1, some 0, [], none⟩
        Key.up).1.history_index = some 0 ∧
      (step ⟨[['x']], []⟩ ⟨['x'], 1, some 0, [], none⟩ Key.up).1.line =
        (⟨['x'], 1, some 0, [], none⟩ : EditorState).line ∧
      (step ⟨[['x']], []⟩ ⟨['x'], 1, some 0, [], none⟩ Key.up).1.cursor_pos =
        (⟨['x'], 1, some 0, [], none⟩ : EditorState).cursor_pos) ∧
    ((step ⟨[['x']], []⟩ ⟨['y'], 1, none, [], none⟩ Key.down).1.line =
        (⟨['y'], 1, none, [], none⟩ : EditorState).line ∧
      (step ⟨[['x']], []⟩ ⟨['y'], 1, none, [], none⟩ Key.down).1.cursor_pos =
        (⟨['y'], 1, none, [], none⟩ : EditorState).cursor_pos ∧
      (step ⟨[['x']], []⟩ ⟨['y'], 1, none, [], none⟩
        Key.down).1.history_index = none ∧
      (step ⟨[['x']], []⟩ ⟨['y'], 1, none, [], none⟩ Key.down).2 = []) :=
  history_nav_clamped ⟨[['x']], []⟩ ⟨['x'], 1, some 0, [], none⟩
    ⟨['y'], 1, none, [], none⟩ rfl (by decide) (by decide) (by decide) rfl

/-- C3, evaluated at the failing input: Buffer "c", Cursor 1, previous key the
printable 'c' (not Tab), empty directory.  The Tab press finds the two
candidates "cat" and "cd", leaves Buffer and Cursor unchanged and prints
nothing — but it does emit exactly one alert: the fall-through `else` of the
Tab handler calls MessageBeep even though its own comment says the bell marks
"no completion found", and the spec says the quiet first Tab emits no
alert. -/
theorem ambiguous_first_tab_bells :
    1 < (find_completion [] ['c']).length ∧
    (step ⟨[], []⟩ ⟨['c'], 1, none, [], some 'c'⟩ Key.tab).1.line = ['c'] ∧
    (step ⟨[], []⟩ ⟨['c'], 1, none, [], some 'c'⟩ Key.tab).1.cursor_pos = 1 ∧
    (step ⟨[], []⟩ ⟨['c'], 1, none, [], some 'c'⟩ Key.tab).2 = [Out.bell] := by
  decide

/-- C6 counterexample: with Buffer "zz", an immediately preceding Tab key, and
an empty directory, a Tab press finds zero candidates but emits no output at
all — in particular not the exactly-one alert the claim requires for every
preceding key. -/
theorem zero_candidates_after_tab_silent :
    find_completion [] (word_to_complete ['z', 'z']) = [] ∧
    (step ⟨[], []⟩ ⟨['z', 'z'], 2, none, [], some '\t'⟩ Key.tab).2 = [] := by
  decide

/-- C6 amended: if a Tab press finds zero completion candidates and the
immediately preceding key was not Tab, Buffer and Cursor are unchanged and
exactly one alert (bell) is emitted; when the preceding key was Tab the
handler is silent instead. -/
theorem zero_candidates_bell (ctx : Ctx) (s : EditorState)
    (hl : s.lst ≠ some '\t')
    (hc : find_completion ctx.dirEntries (word_to_complete s.line) = []) :
    (step ctx s Key.tab).1.line = s.line ∧
    (step ctx s Key.tab).1.cursor_pos = s.cursor_pos ∧
    (step ctx s Key.tab).2 = [Out.bell] := by
  simp [step, hl, hc]

/-- Witness for the amended C6 at a concrete input. -/
theorem zero_candidates_bell_witness :
    (step ⟨[], []⟩ ⟨['z', 'z'], 0, none, [], none⟩ Key.tab).1.line =
      (⟨['z', 'z'], 0, none, [], none⟩ : EditorState).line ∧
    (step ⟨[], []⟩ ⟨['z', 'z'], 0, none, [], none⟩ Key.tab).1.cursor_pos =
      (⟨['z', 'z'], 0, none, [], none⟩ : EditorState).cursor_pos ∧
    (step ⟨[], []⟩ ⟨['z', 'z'], 0, none, [], none⟩ Key.tab).2 = [Out.bell] :=
  zero_candidates_bell ⟨[], []⟩ ⟨['z', 'z'], 0, none, [], none⟩ (by decide)
    (by decide)

/-- The substr comparison of the source is exactly the list-prefix relation. -/
theorem prefOk_eq_decide (pat l : List Char) :
    prefOk pat l = decide (pat <+: l) := by
  unfold prefOk
  have hbeq : (l.take pat.length == pat) =
      decide (l.take pat.length = pat) := by
    cases h : l.take pat.length == pat <;> simp_all
  rw [hbeq, decide_eq_decide, List.prefix_iff_eq_take]
  exact eq_comm

/-- C5: find_completion returns exactly the built-ins of which the partial is
a byte prefix when there is at least one such built-in — the directory
listing is then never consulted (the first branch does not mention `d`) —
and otherwise exactly the directory entries of which the partial is a prefix,
excluding names starting with the hidden-file marker `'.'`; the empty list
when neither tier matches. -/
theorem find_completion_two_tier (d : List (List Char)) (pat : List Char) :
    find_completion d pat =
      if (commands.filter fun c => decide (pat <+: c)) ≠ [] then
        commands.filter fun c => decide (pat <+: c)
      else
        d.filter fun e => decide (e.head? ≠ some '.') && decide (pat <+: e) := by
  have h1 : (commands.filter fun cmd => prefOk pat cmd) =
      commands.filter fun c => decide (pat <+: c) :=
    List.filter_congr fun c _ => prefOk_eq_decide pat c
  have h2 : (d.filter fun e => !(e.head? == some '.') && prefOk pat e) =
      d.filter fun e => decide (e.head? ≠ some '.') && decide (pat <+: e) := by
    refine List.filter_congr fun e _ => ?_
    rw [prefOk_eq_decide]
    have : (!(e.head? == some '.')) = decide (e.head? ≠ some '.') := by
      cases h : e.head? == some '.' <;> simp_all
    rw [this]
  simp only [find_completion, h1, h2]
  split
  · rfl
  · split
    · rfl
    · simp_all

/-- Every candidate find_completion returns passes the prefix check of
`test`. -/
theorem find_completion_mem_prefOk (d : List (List Char))
    {pat x : List Char} (hx : x ∈ find_completion d pat) :
    prefOk pat x = true := by
  simp only [find_completion] at hx
  split at hx
  · exact (List.mem_filter.mp hx).2
  · split at hx
    · have h2 := (List.mem_filter.mp hx).2
      rw [Bool.and_eq_true] at h2
      exact h2.2
    · simp at hx

/-- C10: the exact-match counter `test` applied to the set find_completion
returns always equals that set's size (every returned candidate already has
the partial as a prefix), so the unique-completion condition
`completion nonempty and test = 1` of the Tab handler holds exactly when
find_completion returned a single candidate. -/
theorem test_counts_whole_candidate_set (d : List (List Char))
    (pat : List Char) :
    test (find_completion d pat) pat = (find_completion d pat).length ∧
    ((find_completion d pat ≠ [] ∧ test (find_completion d pat) pat = 1) ↔
      (find_completion d pat).length = 1) := by
  have hall : test (find_completion d pat) pat =
      (find_completion d pat).length := by
    unfold test
    exact List.countP_eq_length.mpr fun a ha => find_completion_mem_prefOk d ha
  refine ⟨hall, ?_⟩
  rw [hall]
  constructor
  · exact fun h => h.2
  · intro h
    refine ⟨fun hnil => ?_, h⟩
    rw [hnil] at h
    simp at h

/-- C4 counterexample: with Buffer "ab cd" and Cursor 0 no space occurs
before the cursor, so the claimed word is the whole Buffer "ab cd"; the Tab
handler instead submits "cd", the suffix after the last space of the whole
Buffer, because `line.rfind(' ')` never looks at the cursor. -/
theorem tab_word_ignores_cursor :
    word_to_complete ['a', 'b', ' ', 'c', 'd'] ≠
      specCurrentWord ['a', 'b', ' ', 'c', 'd'] 0 ∧
    word_to_complete ['a', 'b', ' ', 'c', 'd'] = ['c', 'd'] ∧
    specCurrentWord ['a', 'b', ' ', 'c', 'd'] 0 = ['a', 'b', ' ', 'c', 'd'] := by
  decide

/-- rfindSpace finds no index exactly when the line has no space. -/
theorem rfindSpace_none {l : List Char} (h : rfindSpace l = none) :
    ' ' ∉ l := by
  induction l with
  | nil => simp
  | cons c rest ih =>
    simp only [rfindSpace] at h
    cases hr : rfindSpace rest with
    | some i => simp [hr] at h
    | none =>
      rw [hr] at h
      by_cases hc : c = ' '
      · simp [hc] at h
      · have hrest := ih hr
        simp only [List.mem_cons, not_or]
        exact ⟨fun e => hc e.symm, hrest⟩

/-- rfindSpace returns the index of the last space: a space sits there and no
space occurs after it. -/
theorem rfindSpace_some {l : List Char} {i : Nat}
    (h : rfindSpace l = some i) :
    i < l.length ∧ l.drop i = ' ' :: l.drop (i + 1) ∧
      ' ' ∉ l.drop (i + 1) := by
  induction l generalizing i with
  | nil => simp [rfindSpace] at h
  | cons c rest ih =>
    simp only [rfindSpace] at h
    cases hr : rfindSpace rest with
    | some j =>
      rw [hr] at h
      obtain rfl : j + 1 = i := Option.some.inj h
      obtain ⟨hlt, hdrop, hns⟩ := ih hr
      refine ⟨by simpa using Nat.succ_lt_succ hlt, ?_, ?_⟩
      · simpa [List.drop_succ_cons] using hdrop
      · simpa [List.drop_succ_cons] using hns
    | none =>
      rw [hr] at h
      by_cases hc : c = ' '
      · rw [if_pos hc] at h
        obtain rfl : (0 : Nat) = i := Option.some.inj h
        exact ⟨by simp, by simp [hc], by simpa using rfindSpace_none hr⟩
      · rw [if_neg hc] at h
        exact absurd h (by simp)

/-- C4 amended: on every Tab press the word submitted to the Completion
Source is the suffix of the Buffer after the last space of the whole Buffer
(the whole Buffer when it contains no space), independent of the cursor
position: the submitted word contains no space and, when the Buffer has one,
is exactly what follows the final space. -/
theorem word_to_complete_after_last_space (line : List Char) :
    (' ' ∉ line ∧ word_to_complete line = line) ∨
    (∃ pre, line = pre ++ ' ' :: word_to_complete line ∧
      ' ' ∉ word_to_complete line) := by
  cases h : rfindSpace line with
  | none =>
    left
    exact ⟨rfindSpace_none h, by simp [word_to_complete, h]⟩
  | some i =>
    right
    obtain ⟨hlt, hdrop, hns⟩ := rfindSpace_some h
    refine ⟨line.take i, ?_, ?_⟩
    · conv_lhs => rw [← List.take_append_drop i line]
      rw [hdrop]
      simp [word_to_complete, h]
    · simpa [word_to_complete, h] using hns

/-- Inserting a printable character with the cursor at the end of the line
appends it and advances the cursor. -/
theorem step_printable_at_end (ctx : Ctx) (s : EditorState) (c : Char)
    (h : s.cursor_pos = s.line.length) :
    (step ctx s (Key.printable c)).1.line = s.line ++ [c] ∧
    (step ctx s (Key.printable c)).1.cursor_pos = s.line.length + 1 := by
  simp [step, h]

/-- Running a sequence of printable keys from a cursor-at-end state appends
the characters in order and keeps the cursor at the end. -/
theorem runKeys_printables (ctx : Ctx) (cs : List Char) :
    ∀ s : EditorState, s.cursor_pos = s.line.length →
      (runKeys ctx s (cs.map Key.printable)).line = s.line ++ cs ∧
      (runKeys ctx s (cs.map Key.printable)).cursor_pos =
        s.line.length + cs.length := by
  induction cs with
  | nil => intro s h; simp [runKeys, h]
  | cons c rest ih =>
    intro s h
    obtain ⟨hl, hc⟩ := step_printable_at_end ctx s c h
    have heq : runKeys ctx s ((c :: rest).map Key.printable) =
        runKeys ctx (step ctx s (Key.printable c)).1
          (rest.map Key.printable) := rfl
    obtain ⟨ihl, ihc⟩ := ih (step ctx s (Key.printable c)).1
      (by rw [hl, hc]; simp)
    rw [heq]
    constructor
    · rw [ihl, hl]
      simp
    · rw [ihc, hl]
      simp [List.length_append]
      omega

/-- C8: for every finite sequence of printable-character key events (bytes
32..126) with no navigation, completion or deletion keys, starting from an
empty buffer, the final Buffer equals the concatenation of the inserted
characters in arrival order and the final Cursor equals the Buffer's
length. -/
theorem printable_sequence_concat (ctx : Ctx) (s : EditorState)
    (cs : List Char) (hline : s.line = []) (hcur : s.cursor_pos = 0)
    (hprint : ∀ c ∈ cs, 32 ≤ c.toNat ∧ c.toNat ≤ 126) :
    (runKeys ctx s (cs.map Key.printable)).line = cs ∧
    (runKeys ctx s (cs.map Key.printable)).cursor_pos =
      (runKeys ctx s (cs.map Key.printable)).line.length := by
  obtain ⟨hl, hc⟩ := runKeys_printables ctx cs s (by rw [hline, hcur]; rfl)
  refine ⟨by rw [hl, hline]; rfl, ?_⟩
  rw [hl, hc, hline]
  simp

/-- Witness for C8 at a concrete input. -/
theorem printable_sequence_concat_witness :
    (runKeys ⟨[], []⟩ initState (['h', 'i'].map Key.printable)).line =
      ['h', 'i'] ∧
    (runKeys ⟨[], []⟩ initState (['h', 'i'].map Key.printable)).cursor_pos =
      (runKeys ⟨[], []⟩ initState (['h', 'i'].map Key.printable)).line.length :=
  printable_sequence_concat ⟨[], []⟩ initState ['h', 'i'] rfl rfl (by decide)

/-- dropWhile either returns nil or a list whose head fails the predicate. -/
theorem dropWhile_head_not (p : Char → Bool) (l : List Char) :
    l.dropWhile p = [] ∨
      ∃ a t, l.dropWhile p = a :: t ∧ p a = false := by
  induction l with
  | nil => left; rfl
  | cons c rest ih =>
    by_cases hc : p c = true
    · simpa [List.dropWhile_cons, hc] using ih
    · right
      refine ⟨c, rest, by simp [List.dropWhile_cons, hc], ?_⟩
      simpa using hc

/-- The first character of a trimmed non-empty line is not whitespace. -/
theorem trimWs_head_not_ws {l : List Char} {a : Char} {t : List Char}
    (h : trimWs l = a :: t) : wsChar a = false := by
  unfold trimWs at h
  have hlast :
      ((l.dropWhile wsChar).reverse.dropWhile wsChar).getLast? = some a := by
    rw [← List.head?_reverse, h]
    rfl
  obtain ⟨w, hw⟩ :=
    List.dropWhile_suffix (l := (l.dropWhile wsChar).reverse) wsChar
  have hulast : (l.dropWhile wsChar).reverse.getLast? = some a := by
    rw [← hw, List.getLast?_append, hlast]
    rfl
  have huhead : (l.dropWhile wsChar).head? = some a :=
    (List.getLast?_reverse _).symm.trans hulast
  rcases dropWhile_head_not wsChar l with hnil | ⟨b, t', hb, hpb⟩
  · rw [hnil] at huhead
    simp at huhead
  · rw [hb] at huhead
    obtain rfl : b = a := by simpa using huhead
    exact hpb

/-- main's per-line history update appends the trimmed line exactly when it
is non-empty: the empty-command safety check can never fire because a
trimmed non-empty line starts with a non-space. -/
theorem submitLine_eq (hist : List (List Char)) (raw : List Char) :
    submitLine hist raw =
      if trimWs raw = [] then hist else hist ++ [trimWs raw] := by
  by_cases h : trimWs raw = []
  · simp [submitLine, h]
  · obtain ⟨a, t, ha⟩ := List.exists_cons_of_ne_nil h
    have hws := trimWs_head_not_ws ha
    have hne : a ≠ ' ' := by
      intro e
      rw [e] at hws
      simp [wsChar] at hws
    simp [submitLine, h, ha, List.takeWhile_cons, hne]

/-- C9: the in-memory History Store after a session is exactly the sequence
loaded at start followed by the (trimmed) submitted non-empty lines in
submission order: one append per non-empty submitted line, none for empty
lines, entries added only at the end, no deduplication, no reordering. -/
theorem sessionHistory_append_only (loaded raws : List (List Char)) :
    sessionHistory loaded raws =
      loaded ++ (raws.map trimWs).filter (fun l => !l.isEmpty) := by
  induction raws generalizing loaded with
  | nil => simp [sessionHistory]
  | cons r rest ih =>
    have hstep : sessionHistory loaded (r :: rest) =
        sessionHistory (submitLine loaded r) rest := rfl
    rw [hstep, ih (submitLine loaded r), submitLine_eq]
    by_cases h : trimWs r = []
    · simp [h]
    · have hemp : (trimWs r).isEmpty = false := by
        cases ht : trimWs r with
        | nil => exact absurd ht h
        | cons a t => rfl
      simp [h, hemp, List.filter_cons]

end Shell
